import Mathlib

/-!
Verification of the hyperparameter-search core of the Water-Quality-Predictor
repository against its specification.

The Python code is shallowly embedded in Lean:
* Python floats are modelled as exact rationals (`ℚ`).  All concrete inputs
  appearing in theorems below were chosen so that the corresponding IEEE-754
  computation performed by CPython lands on exactly the same decimal values,
  so the rational model and the float program agree on them.
* `round(x, d)` (CPython's banker's rounding) is modelled by `roundTo`,
  rounding half to even.
* Exceptions are modelled with `Except String`; non-terminating `while` loops
  are modelled with an explicit fuel parameter (Python floats always make
  `to_full_int` terminate; the fuel only truncates genuinely diverging loops).
* Randomness (`random.choice` / `random.random`) is modelled by oracle
  functions supplied as parameters; theorems quantify over all oracles.
-/

set_option maxRecDepth 8000
set_option maxHeartbeats 1600000

namespace WaterQuality

/-- Round half to even (CPython's `round` tie-breaking), on rationals. -/
def roundHalfEven (x : ℚ) : ℤ :=
  let f := ⌊x⌋
  let frac := x - f
  if frac < 1/2 then f
  else if 1/2 < frac then f + 1
  else if f % 2 = 0 then f else f + 1

/-- Model of Python `round(x, d)` for `d ≥ 0` fractional digits. -/
def roundTo (x : ℚ) (d : ℕ) : ℚ :=
  (roundHalfEven (x * 10 ^ d) : ℚ) / 10 ^ d

/-- Model of `BrutusGenerator.to_full_int` together with the number of times
the argument was multiplied by 10.  The Python loop
`while int(number) != number: number *= 10` always terminates on floats; the
fuel parameter makes the recursion total on `ℚ` (`none` = fuel exhausted,
unreachable for inputs with a finite decimal expansion). -/
def fullIntSteps : ℕ → ℚ → Option (ℚ × ℕ)
  | 0, q => if q.den = 1 then some (q, 0) else none
  | fuel + 1, q =>
      if q.den = 1 then some (q, 0)
      else (fullIntSteps fuel (q * 10)).map (fun p => (p.1, p.2 + 1))

/-- `BrutusGenerator.to_full_int` itself (first component of `fullIntSteps`). -/
def to_full_int (fuel : ℕ) (number : ℚ) : Option ℚ :=
  (fullIntSteps fuel number).map (fun p => p.1)

/-- The `while (item + step) <= max_val` loop body of
`BrutusGenerator.get_variations_in_range`: repeatedly add `step` to the
unrounded accumulator and append the rounded value. -/
def gvLoop (maxVal step : ℚ) (d : ℕ) : ℚ → ℕ → List ℚ
  | _, 0 => []
  | item, fuel + 1 =>
      if item + step ≤ maxVal then
        roundTo (item + step) d :: gvLoop maxVal step d (item + step) fuel
      else []

/-- Tail of `get_variations_in_range`: run the while loop and force-append
`max_val` when it was not hit. -/
def gvFinish (res : List ℚ) (minVal maxVal step : ℚ) (d : ℕ) (fuel : ℕ) :
    List ℚ :=
  let r := res ++ gvLoop maxVal step d minVal fuel
  if maxVal ∈ r then r else r ++ [maxVal]

/-- Model of `BrutusGenerator.get_variations_in_range(min_val, max_val, step,
max_steps)`.  `Except.error` models a raised Python exception
(`ZeroDivisionError` on the two divisions whose denominator can be zero) and
the fuel-exhaustion artifact of the rational model. -/
def get_variations_in_range (fuel : ℕ) (min0 maxVal : ℚ) (step0 : Option ℚ)
    (maxSteps : Option ℕ) : Except String (List ℚ) :=
  let result0 : List ℚ := [min0]
  let minVal : ℚ := if min0 = 0 then 1 else min0
  let result1 : List ℚ := if min0 = 0 then result0 ++ [1] else result0
  match step0 with
  | none =>
      match fullIntSteps fuel minVal with
      | none => Except.error "model: to_full_int fuel exhausted"
      | some (minInteger, k) =>
          -- multiplicator = min_integer / min_val = 10 ^ k exactly
          let stepsCount : ℚ := maxVal * 10 ^ k - minInteger + 1
          if stepsCount = 0 then Except.error "ZeroDivisionError" else
          let stepRaw : ℚ := maxVal / stepsCount
          -- decimal_digits = int(math.log10(multiplicator)) = k
          let step1 : ℚ := roundTo stepRaw k
          match maxSteps with
          | some ms =>
              if (ms : ℚ) < stepsCount then
                if ms = 0 then Except.error "ZeroDivisionError" else
                let step2 : ℚ := roundTo ((stepsCount * stepRaw) / ms) k
                Except.ok (gvFinish result1 minVal maxVal step2 k fuel)
              else Except.ok (gvFinish result1 minVal maxVal step1 k fuel)
          | none => Except.ok (gvFinish result1 minVal maxVal step1 k fuel)
  | some st =>
      -- decimal_digits = number of fractional digits of `str(step)`
      match fullIntSteps fuel st with
      | none => Except.error "model: to_full_int fuel exhausted"
      | some (_, k) => Except.ok (gvFinish result1 minVal maxVal st k fuel)

/-- `q` has at most `d` fractional decimal digits. -/
def IsDec (d : ℕ) (q : ℚ) : Prop := (q * 10 ^ d).den = 1

/-- One leaderboard position of `BrutusGenerator.iterate_variants`
(the `meta` field is irrelevant to the claims and omitted). -/
structure LBEntry where
  name : String
  accuracy : ℚ
deriving DecidableEq

/-- The `for lb_index, position in leaderboard.items()` scan: index of the
first position whose accuracy is strictly below the new accuracy. -/
def scan_idx (acc : ℚ) : List LBEntry → Option ℕ
  | [] => none
  | p :: rest =>
      if p.accuracy < acc then some 0 else (scan_idx acc rest).map (· + 1)

/-- The `new_leaderboard` rebuilding loop `for i in range(max_leaders)`:
keep positions before `idx`, put the new entry at `idx`, shift the rest down,
and drop anything at position `≥ max_leaders`. -/
def lb_insert_at (maxLeaders : ℕ) (lb : List LBEntry) (e : LBEntry)
    (idx : ℕ) : List LBEntry :=
  (lb.take idx ++ e :: lb.drop idx).take maxLeaders

/-- The leaderboard-insertion step of `BrutusGenerator.iterate_variants`
(lines 211-252): decide whether the new run can enter the leaderboard and at
which index, then rebuild. -/
def lb_consider (maxLeaders : ℕ) (lb : List LBEntry) (name : String)
    (acc : ℚ) : List LBEntry :=
  let e : LBEntry := ⟨name, acc⟩
  if lb.length = 0 then [e]
  else
    match scan_idx acc lb with
    | some idx => lb_insert_at maxLeaders lb e idx
    | none =>
        if lb.length < maxLeaders then lb_insert_at maxLeaders lb e lb.length
        else lb

/-- Folding the insertion step over a whole sequence of considered outcomes,
starting from the empty leaderboard. -/
def lb_consider_all (maxLeaders : ℕ) (outcomes : List (String × ℚ)) :
    List LBEntry :=
  outcomes.foldl (fun lb p => lb_consider maxLeaders lb p.1 p.2) []

/-- Sorted in descending accuracy order. -/
def SortedDesc (lb : List LBEntry) : Prop :=
  lb.Pairwise (fun a b => b.accuracy ≤ a.accuracy)

/-- Post-forecast bookkeeping for one candidate in `iterate_variants`: the
`if os.path.isdir(...)` block.  When the run folder exists the accuracy file
is read (which may itself raise, modelled by `getAcc`), the leaderboard is
updated and `variation_index` is incremented; when it is absent nothing at
all happens. -/
def outcome_step (maxLeaders : ℕ) (artifactsPresent : Bool)
    (getAcc : Unit → Except String ℚ) (runName : String)
    (lb : List LBEntry) (idx : ℕ) : Except String (List LBEntry × ℕ) :=
  if artifactsPresent then
    match getAcc () with
    | Except.error e => Except.error e
    | Except.ok a => Except.ok (lb_consider maxLeaders lb runName a, idx + 1)
  else Except.ok (lb, idx)

/-- The search-session driver of `iterate_variants`, abstracted over the
candidates: if the session's run-folder root already exists, `os.mkdir`
raises `FileExistsError` (after the error dialog) and nothing else runs;
otherwise every candidate is evaluated in order.  The first component of the
result counts forecast invocations. -/
def run_search (pathAlreadyExists : Bool) (maxLeaders : ℕ)
    (cands : List (Bool × (Unit → Except String ℚ) × String)) :
    Except String (ℕ × List LBEntry × ℕ) :=
  if pathAlreadyExists then Except.error "FileExistsError"
  else
    cands.foldlM
      (fun st c => do
        let r ← outcome_step maxLeaders c.1 c.2.1 c.2.2 st.2.1 st.2.2
        pure (st.1 + 1, r.1, r.2))
      (0, [], 0)

/-- Key lookup in a `(ds, value)` frame (first matching row). -/
def lookupDs {α : Type} (k : ℤ) : List (ℤ × α) → Option α
  | [] => none
  | p :: rest => if p.1 = k then some p.2 else lookupDs k rest

/-- Inner join of predictions `(ds, yhat)` with actuals `(ds, y)` on `ds`
(model of `pred.merge(actuals_on_grid, on="ds", how="inner")`; both frames
come from per-frequency aggregation, so `ds` keys are unique).  Timestamps
are modelled as integers. -/
def mergeInner (pred actuals : List (ℤ × ℚ)) : List (ℤ × ℚ × ℚ) :=
  pred.filterMap (fun p => (lookupDs p.1 actuals).map (fun y => (p.1, p.2, y)))

/-- The joined rows that survive `df = df[df["y"].abs() > 0]`. -/
def accuracy_eval_rows (pred actuals : List (ℤ × ℚ)) : List (ℤ × ℚ × ℚ) :=
  (mergeInner pred actuals).filter (fun r => 0 < |r.2.2|)

/-- Model of `_compute_accuracy_within_tolerance` (prophet_multivar.py,
lines 555-601), reduced to its `accuracy` field: `none` models the persisted
`accuracy: None` (undefined), otherwise the share of joined points whose
relative error is within the tolerance. -/
def compute_accuracy_within_tolerance (pred actuals : List (ℤ × ℚ))
    (tolerance : ℚ) : Option ℚ :=
  if pred = [] ∨ actuals = [] then none
  else if (accuracy_eval_rows pred actuals).length = 0 then none
  else
    some (((accuracy_eval_rows pred actuals).countP
        (fun r => |r.2.1 - r.2.2| / |r.2.2| ≤ tolerance) : ℚ) /
      ((accuracy_eval_rows pred actuals).length : ℚ))

/-- Model of `Forecast.getAccuracy`: reads the persisted accuracy statistic
and returns `float(accuracy) * 100`; `float(None)` raises `TypeError`. -/
def forecast_getAccuracy (stat : Option ℚ) : Except String ℚ :=
  match stat with
  | none => Except.error "TypeError"
  | some a => Except.ok (a * 100)

/-- The sequential inner join of `_merge_on_ds`: join the accumulated frame
with one more per-parameter frame on `ds`, appending that parameter's value
column. -/
def merge2 (acc : List (ℤ × List ℚ)) (f : List (ℤ × ℚ)) :
    List (ℤ × List ℚ) :=
  acc.filterMap (fun r => (lookupDs r.1 f).map (fun v => (r.1, r.2 ++ [v])))

/-- Model of `_merge_on_ds([target_train] + reg_frames)`: rows are kept only
for timestamps present in the target and in every regressor frame. -/
def merge_on_ds (target : List (ℤ × ℚ)) (regFrames : List (List (ℤ × ℚ))) :
    List (ℤ × List ℚ) :=
  regFrames.foldl merge2 (target.map (fun p => (p.1, [p.2])))

/-- The data-sufficiency gate of `forecast_with_regressors` (lines 271-273):
`if train_df.empty or len(train_df) < 10: raise ValueError(...)`. -/
def train_matrix_gate (target : List (ℤ × ℚ))
    (regFrames : List (List (ℤ × ℚ))) :
    Except String (List (ℤ × List ℚ)) :=
  let m := merge_on_ds target regFrames
  if m = [] ∨ m.length < 10 then
    Except.error
      "Insufficient overlapping data between target and regressors after alignment."
  else Except.ok m

/-- `hist.iloc[-1]` — the last historical value (history is sorted by `ds`).
Timestamps are modelled as integer seconds since the epoch, matching the
`linear` strategy's own time axis. -/
def lastVal (hist : List (ℤ × ℚ)) : ℚ := (hist.getLast?).elim 0 (fun p => p.2)

/-- `hist.rolling(ma_window, min_periods=1).mean().iloc[-1]`: the mean of
the last `min(w, n)` historical values. -/
def rollingMeanLast (w : ℕ) (vals : List ℚ) : ℚ :=
  let lastw := vals.drop (vals.length - w)
  lastw.sum / (lastw.length : ℚ)

/-- `hist.index.max()`. -/
def histMaxTs (hist : List (ℤ × ℚ)) : ℤ :=
  hist.foldl (fun m p => max m p.1) ((hist.head?).elim 0 (fun p => p.1))

/-- The ordinary-least-squares fit of the `linear` strategy in
`_forecast_regressors_future` (slope, intercept), including the
`len(hist) > 3` window cut with its empty-cut fallback and the
`denom == 0` degenerate-slope guard. -/
def linearFit (hist : List (ℤ × ℚ)) (linearWindow : ℕ) : ℚ × ℚ :=
  let h0 :=
    if 3 < hist.length then
      let hcut := hist.filter
        (fun p => histMaxTs hist - 86400 * (linearWindow : ℤ) ≤ p.1)
      if hcut = [] then hist else hcut
    else hist
  let n : ℚ := (h0.length : ℚ)
  let xm := (h0.map (fun p => (p.1 : ℚ))).sum / n
  let ym := (h0.map (fun p => p.2)).sum / n
  let denom := (h0.map (fun p => ((p.1 : ℚ) - xm) ^ 2)).sum
  if denom = 0 then (0, ym)
  else
    let slope := (h0.map (fun p => ((p.1 : ℚ) - xm) * (p.2 - ym))).sum / denom
    (slope, ym - slope * xm)

/-- The per-strategy future value series of `_forecast_regressors_future`,
one value per requested timestamp.  Any string other than the three named
strategies selects the engine-assisted (Prophet) branch, whose univariate
prediction is modelled by the total oracle `engine` (Prophet returns a
`yhat` for every requested row). -/
def strategyValues (strategy : String) (hist : List (ℤ × ℚ))
    (futureIndex : List ℤ) (maWindow linearWindow : ℕ) (engine : ℤ → ℚ) :
    List ℚ :=
  if strategy = "last" then futureIndex.map (fun _ => lastVal hist)
  else if strategy = "moving_average" then
    futureIndex.map
      (fun _ => rollingMeanLast maWindow (hist.map (fun p => p.2)))
  else if strategy = "linear" then
    futureIndex.map (fun t : ℤ =>
      (linearFit hist linearWindow).2 +
        (linearFit hist linearWindow).1 * (t : ℚ))
  else futureIndex.map engine

/-- Pandas `ffill`: replace each missing value by the last preceding
defined value (`prev` is the value carried into the block). -/
def ffill : Option ℚ → List (Option ℚ) → List (Option ℚ)
  | _, [] => []
  | prev, none :: rest => prev :: ffill prev rest
  | _, some v :: rest => some v :: ffill (some v) rest

/-- Pandas `bfill`: fill backwards = fill forwards on the reversed list. -/
def bfill (l : List (Option ℚ)) : List (Option ℚ) :=
  (ffill none l.reverse).reverse

/-- Model of `_forecast_regressors_future` for one regressor: compute the
strategy series over the requested date range, then
`out.reindex(future_index).ffill().bfill()`. -/
def forecast_regressors_future (strategy : String) (hist : List (ℤ × ℚ))
    (futureIndex : List ℤ) (maWindow linearWindow : ℕ) (engine : ℤ → ℚ) :
    List (ℤ × Option ℚ) :=
  futureIndex.zip (bfill (ffill none
    ((strategyValues strategy hist futureIndex maWindow linearWindow
        engine).map some)))

/-- The parameter space handed to `smart_param_generator`: the simple
(non-`"regressors"`) keys with their value lists, and the `"regressors"`
entry mapping each regressor name to its importance-value list. -/
structure ParamSpace where
  simple : List (String × List ℚ)
  regressors : List (String × List ℚ)

/-- One yielded combination. -/
structure Candidate where
  base : List (String × ℚ)
  regressors : List (String × ℚ)

/-- `random.choice(l)` driven by an oracle value `i`: some element of `l`
for nonempty `l`, `none` (IndexError) on an empty list. -/
def pyChoice {α : Type} (l : List α) (i : ℕ) : Option α := l.get? (i % l.length)

/-- The `base = {k: random.choice(space[k]) for k in simple_keys}` draw.
Threads the oracle-consumption counter `t`; `none` models the IndexError
raised on an empty value list. -/
def pickSimple (choiceIdx : ℕ → ℕ) :
    List (String × List ℚ) → ℕ → Option (List (String × ℚ)) × ℕ
  | [], t => (some [], t)
  | kv :: rest, t =>
      match pyChoice kv.2 (choiceIdx t) with
      | none => (none, t + 1)
      | some v =>
          let r := pickSimple choiceIdx rest (t + 1)
          (r.1.map (fun l => (kv.1, v) :: l), r.2)

/-- One stochastic regressor subset: per regressor a coin with 30% success;
on success, a choice from its importance list. -/
def pickRegs (choiceIdx : ℕ → ℕ) (coin : ℕ → Bool) :
    List (String × List ℚ) → ℕ → Option (List (String × ℚ)) × ℕ
  | [], t => (some [], t)
  | kv :: rest, t =>
      if coin t then
        match pyChoice kv.2 (choiceIdx (t + 1)) with
        | none => (none, t + 2)
        | some v =>
            let r := pickRegs choiceIdx coin rest (t + 2)
            (r.1.map (fun l => (kv.1, v) :: l), r.2)
      else pickRegs choiceIdx coin rest (t + 1)

/-- Result of running the generator: the candidates yielded so far, the
oracle position, and whether an exception aborted the sequence (a consumer
receives exactly `yielded` before the exception propagates). -/
structure GenResult where
  yielded : List Candidate
  t : ℕ
  errored : Bool

/-- The `for _ in range(n_regressor_sets)` inner loop (all sets share the
already-drawn `base`). -/
def regSetsLoop (choiceIdx : ℕ → ℕ) (coin : ℕ → Bool)
    (regs : List (String × List ℚ)) (base : List (String × ℚ)) :
    ℕ → ℕ → GenResult
  | 0, t => ⟨[], t, false⟩
  | n + 1, t =>
      match pickRegs choiceIdx coin regs t with
      | (none, t2) => ⟨[], t2, true⟩
      | (some chosen, t2) =>
          let rest := regSetsLoop choiceIdx coin regs base n t2
          ⟨⟨base, chosen⟩ :: rest.yielded, rest.t, rest.errored⟩

/-- The `for _ in range(n_main_samples)` outer loop: per draw, pick the base
values, yield the regressor-free baseline, then the `n` stochastic sets. -/
def mainLoop (choiceIdx : ℕ → ℕ) (coin : ℕ → Bool) (space : ParamSpace) :
    ℕ → ℕ → ℕ → GenResult
  | 0, _, t => ⟨[], t, false⟩
  | m + 1, n, t =>
      match pickSimple choiceIdx space.simple t with
      | (none, t2) => ⟨[], t2, true⟩
      | (some base, t2) =>
          let sets := regSetsLoop choiceIdx coin space.regressors base n t2
          if sets.errored then ⟨⟨base, []⟩ :: sets.yielded, sets.t, true⟩
          else
            let rest := mainLoop choiceIdx coin space m n sets.t
            ⟨⟨base, []⟩ :: (sets.yielded ++ rest.yielded), rest.t,
              rest.errored⟩

/-- Model of `smart_param_generator(space, n_main_samples,
n_regressor_sets)` (modules/helpers.py), fully driven by the two random
oracles. -/
def smart_param_generator (choiceIdx : ℕ → ℕ) (coin : ℕ → Bool)
    (space : ParamSpace) (nMainSamples nRegressorSets : ℕ) : GenResult :=
  mainLoop choiceIdx coin space nMainSamples nRegressorSets 0

theorem isDec_iff {d : ℕ} {q : ℚ} : IsDec d q ↔ ∃ z : ℤ, q * 10 ^ d = z := by
  constructor
  · intro h
    exact ⟨(q * 10 ^ d).num, ((q * 10 ^ d).den_eq_one_iff.mp h).symm⟩
  · rintro ⟨z, hz⟩
    simp [IsDec, hz]

theorem isDec_add {d : ℕ} {a b : ℚ} (ha : IsDec d a) (hb : IsDec d b) :
    IsDec d (a + b) := by
  rcases isDec_iff.mp ha with ⟨x, hx⟩
  rcases isDec_iff.mp hb with ⟨y, hy⟩
  exact isDec_iff.mpr ⟨x + y, by push_cast [add_mul, hx, hy]; ring⟩

theorem fullIntSteps_spec :
    ∀ (fuel : ℕ) (q mi : ℚ) (k : ℕ),
      fullIntSteps fuel q = some (mi, k) → mi = q * 10 ^ k ∧ mi.den = 1 := by
  intro fuel
  induction fuel with
  | zero =>
    intro q mi k h
    simp only [fullIntSteps] at h
    split at h
    · simp only [Option.some.injEq, Prod.mk.injEq] at h
      obtain ⟨h1, h2⟩ := h
      subst h1; subst h2
      exact ⟨by simp, by assumption⟩
    · exact absurd h (by simp)
  | succ n ih =>
    intro q mi k h
    simp only [fullIntSteps] at h
    split at h
    · simp only [Option.some.injEq, Prod.mk.injEq] at h
      obtain ⟨h1, h2⟩ := h
      subst h1; subst h2
      exact ⟨by simp, by assumption⟩
    · rcases Option.map_eq_some'.mp h with ⟨⟨mi', k'⟩, hrec, heq⟩
      simp only [Prod.mk.injEq] at heq
      rcases ih (q * 10) mi' k' hrec with ⟨h1, h2⟩
      refine ⟨?_, heq.1 ▸ h2⟩
      rw [← heq.1, ← heq.2, h1, pow_succ]
      ring

theorem fullIntSteps_isDec {fuel : ℕ} {q mi : ℚ} {k : ℕ}
    (h : fullIntSteps fuel q = some (mi, k)) : IsDec k q := by
  rcases fullIntSteps_spec fuel q mi k h with ⟨h1, h2⟩
  exact isDec_iff.mpr ⟨mi.num, by rw [← h1]; exact ((mi.den_eq_one_iff).mp h2).symm⟩

theorem roundHalfEven_intCast (z : ℤ) : roundHalfEven (z : ℚ) = z := by
  simp [roundHalfEven, Int.floor_intCast]

theorem roundTo_eq_self {d : ℕ} {q : ℚ} (h : IsDec d q) : roundTo q d = q := by
  rcases isDec_iff.mp h with ⟨z, hz⟩
  have h10 : (10 : ℚ) ^ d ≠ 0 := by positivity
  rw [roundTo, hz, roundHalfEven_intCast, ← hz,
    mul_div_assoc, div_self h10, mul_one]

theorem roundTo_isDec (d : ℕ) (q : ℚ) : IsDec d (roundTo q d) := by
  have h10 : (10 : ℚ) ^ d ≠ 0 := by positivity
  exact isDec_iff.mpr ⟨roundHalfEven (q * 10 ^ d), by
    rw [roundTo, div_mul_cancel₀ _ h10]⟩

theorem one_le_roundHalfEven {y : ℚ} (h : 1 ≤ y) : 1 ≤ roundHalfEven y := by
  have hf : (1 : ℤ) ≤ ⌊y⌋ := by
    exact_mod_cast Int.le_floor.mpr (by exact_mod_cast h)
  unfold roundHalfEven
  dsimp only
  split
  · exact hf
  · split
    · omega
    · split
      · exact hf
      · omega

theorem roundTo_pos {d : ℕ} {q : ℚ} (h : 1 ≤ q * 10 ^ d) : 0 < roundTo q d := by
  have h1 : (1 : ℚ) ≤ (roundHalfEven (q * 10 ^ d) : ℚ) := by
    exact_mod_cast one_le_roundHalfEven h
  have h10 : (0 : ℚ) < 10 ^ d := by positivity
  rw [roundTo]
  positivity

theorem gvLoop_chain_mem {maxVal step : ℚ} {d : ℕ} (hs : IsDec d step)
    (hpos : 0 < step) :
    ∀ (fuel : ℕ) (item : ℚ), IsDec d item →
      List.Chain (· < ·) item (gvLoop maxVal step d item fuel) ∧
      ∀ x ∈ gvLoop maxVal step d item fuel, x ≤ maxVal := by
  intro fuel
  induction fuel with
  | zero => intro item _; simp [gvLoop]
  | succ n ih =>
    intro item hitem
    simp only [gvLoop]
    split
    · rename_i h
      have hadd : IsDec d (item + step) := isDec_add hitem hs
      rw [roundTo_eq_self hadd]
      rcases ih (item + step) hadd with ⟨hc, hm⟩
      refine ⟨List.Chain.cons (by linarith) hc, ?_⟩
      intro x hx
      rcases List.mem_cons.mp hx with h1 | h2
      · rw [h1]; exact h
      · exact hm x h2
    · simp

theorem chain'_getLast_of_max :
    ∀ (l : List ℚ), l.Chain' (· < ·) → ∀ x ∈ l, (∀ y ∈ l, y ≤ x) →
      l.getLast? = some x := by
  intro l
  induction l with
  | nil => simp
  | cons a t ih =>
    intro hc x hx hmax
    cases t with
    | nil =>
      simp only [List.mem_singleton] at hx
      subst hx; rfl
    | cons b t2 =>
      have hab : a < b := (List.chain'_cons.mp hc).1
      have hc2 : List.Chain' (· < ·) (b :: t2) := (List.chain'_cons.mp hc).2
      have hx2 : x ∈ b :: t2 := by
        rcases List.mem_cons.mp hx with h1 | h2
        · exfalso
          have hb := hmax b (by simp)
          rw [← h1] at hab
          linarith
        · exact h2
      have hmax2 : ∀ y ∈ b :: t2, y ≤ x := fun y hy =>
        hmax y (List.mem_cons_of_mem a hy)
      rw [List.getLast?_cons_cons]
      exact ih hc2 x hx2 hmax2

theorem gvFinish_spec {minVal maxVal step : ℚ} {d fuel : ℕ}
    (hmin : IsDec d minVal) (hs : IsDec d step) (hpos : 0 < step)
    (hlt : minVal < maxVal) :
    (gvFinish [minVal] minVal maxVal step d fuel).Chain' (· < ·) ∧
    (gvFinish [minVal] minVal maxVal step d fuel).head? = some minVal ∧
    (gvFinish [minVal] minVal maxVal step d fuel).getLast? = some maxVal := by
  rcases gvLoop_chain_mem hs hpos fuel minVal hmin with ⟨hc, hm⟩
  have hchain : (minVal :: gvLoop maxVal step d minVal fuel).Chain' (· < ·) := hc
  have hmem : ∀ y ∈ minVal :: gvLoop maxVal step d minVal fuel, y ≤ maxVal := by
    intro y hy
    rcases List.mem_cons.mp hy with h1 | h2
    · rw [h1]; exact le_of_lt hlt
    · exact hm y h2
  unfold gvFinish
  simp only [List.singleton_append]
  split
  · rename_i hmemb
    exact ⟨hchain, rfl, chain'_getLast_of_max _ hchain maxVal hmemb hmem⟩
  · rename_i hnmem
    have hlast : ∀ x ∈ (minVal :: gvLoop maxVal step d minVal fuel).getLast?,
        ∀ y ∈ ([maxVal] : List ℚ).head?, x < y := by
      intro x hx y hy
      simp only [List.head?_cons, Option.mem_def, Option.some.injEq] at hy
      subst hy
      have hxmem : x ∈ minVal :: gvLoop maxVal step d minVal fuel :=
        List.mem_of_mem_getLast? hx
      exact lt_of_le_of_ne (hmem x hxmem) (fun h => hnmem (h ▸ hxmem))
    refine ⟨List.Chain'.append hchain (by simp) hlast, ?_, ?_⟩
    · simp
    · rw [List.getLast?_concat]

/-- Claim C1 (amended): for every call `get_variations_in_range(min, max,
max_steps)` with `0 < min < max` (and a positive `max_steps` when provided),
the returned sequence is strictly increasing, its first element is `min` and
its last element is `max`.  The original length bound `≤ max_steps` does not
hold (see the counterexample), and for `min ≤ 0` the sequence need not be
sorted, so the claim is restricted to positive ranges. -/
theorem C1_discretize_amended (fuel : ℕ) (minVal maxVal : ℚ) (maxSteps : Option ℕ)
    (hpos : 0 < minVal) (hlt : minVal < maxVal)
    (mi : ℚ) (k : ℕ) (hfull : fullIntSteps fuel minVal = some (mi, k))
    (hms : ∀ m ∈ maxSteps, 0 < m) :
    ∃ l, get_variations_in_range fuel minVal maxVal none maxSteps =
        Except.ok l ∧
      l.Chain' (· < ·) ∧ l.head? = some minVal ∧ l.getLast? = some maxVal := by
  have hne : minVal ≠ 0 := ne_of_gt hpos
  rcases fullIntSteps_spec fuel minVal mi k hfull with ⟨hmi_eq, hmi_den⟩
  have hIsDec : IsDec k minVal := fullIntSteps_isDec hfull
  have h10 : (0 : ℚ) < 10 ^ k := by positivity
  have hmi_pos : 0 < mi := by rw [hmi_eq]; positivity
  have hmi_one : (1 : ℚ) ≤ mi := by
    have hnum : (mi.num : ℚ) = mi := mi.den_eq_one_iff.mp hmi_den
    have : 0 < mi.num := by
      rw [Rat.num_pos]; exact hmi_pos
    calc (1 : ℚ) ≤ (mi.num : ℚ) := by exact_mod_cast this
    _ = mi := hnum
  have hscpos : 0 < maxVal * 10 ^ k - mi + 1 := by
    have : mi < maxVal * 10 ^ k := by
      rw [hmi_eq]
      exact (mul_lt_mul_right h10).mpr hlt
    linarith
  have hscne : maxVal * 10 ^ k - mi + 1 ≠ 0 := ne_of_gt hscpos
  have hscle : maxVal * 10 ^ k - mi + 1 ≤ maxVal * 10 ^ k := by linarith
  have hstep1 : (1 : ℚ) ≤ maxVal / (maxVal * 10 ^ k - mi + 1) * 10 ^ k := by
    rw [div_mul_eq_mul_div, one_le_div hscpos]
    linarith
  simp only [get_variations_in_range, if_neg hne, hfull]
  cases maxSteps with
  | none =>
    rw [if_neg hscne]
    refine ⟨_, rfl, ?_⟩
    exact gvFinish_spec hIsDec (roundTo_isDec _ _) (roundTo_pos hstep1) hlt
  | some ms =>
    have hmspos : 0 < ms := hms ms rfl
    have hmsne : ms ≠ 0 := Nat.pos_iff_ne_zero.mp hmspos
    have hmsq : (0 : ℚ) < (ms : ℚ) := by exact_mod_cast hmspos
    rw [if_neg hscne]
    dsimp only
    by_cases hcap : (ms : ℚ) < maxVal * 10 ^ k - mi + 1
    · rw [if_pos hcap, if_neg hmsne]
      have harg : (maxVal * 10 ^ k - mi + 1) *
          (maxVal / (maxVal * 10 ^ k - mi + 1)) / (ms : ℚ) = maxVal / ms := by
        rw [mul_div_assoc']
        congr 1
        field_simp
      rw [harg]
      have hstep2 : (1 : ℚ) ≤ maxVal / (ms : ℚ) * 10 ^ k := by
        rw [div_mul_eq_mul_div, one_le_div hmsq]
        calc (ms : ℚ) ≤ maxVal * 10 ^ k - mi + 1 := le_of_lt hcap
        _ ≤ maxVal * 10 ^ k := hscle
      refine ⟨_, rfl, ?_⟩
      exact gvFinish_spec hIsDec (roundTo_isDec _ _) (roundTo_pos hstep2) hlt
    · rw [if_neg hcap]
      refine ⟨_, rfl, ?_⟩
      exact gvFinish_spec hIsDec (roundTo_isDec _ _) (roundTo_pos hstep1) hlt

/-- Claim C1 (witness): the amended discretizer property instantiated at the
concrete call `get_variations_in_range(0.5, 1)`. -/
theorem C1_discretize_amended_witness :
    ∃ l, get_variations_in_range 10 (1/2) 1 none none = Except.ok l ∧
      l.Chain' (· < ·) ∧ l.head? = some (1/2) ∧ l.getLast? = some 1 :=
  C1_discretize_amended 10 (1/2) 1 none (by norm_num) (by norm_num) 5 1
    (by norm_num [fullIntSteps]) (by simp)

/-- Claim C1 (counterexample): at `min = 0.1`, `max = 5`, `max_steps = 10`
(the exact values the search uses for the per-regressor importance range) the
call succeeds but returns 11 values, violating the claimed
`length ≤ max_steps` bound. -/
theorem C1_discretize_counterexample :
    (1 : ℚ)/10 < 5 ∧
    ∃ l, get_variations_in_range 16 (1/10) 5 none (some 10) = Except.ok l ∧
      ¬ l.length ≤ 10 := by
  refine ⟨by norm_num, [1/10, 6/10, 11/10, 16/10, 21/10, 26/10, 31/10, 36/10,
    41/10, 46/10, 5], ?_, by norm_num⟩
  norm_num [get_variations_in_range, fullIntSteps, gvFinish, gvLoop, roundTo,
    roundHalfEven]

/-- Claim C7 (counterexample): `get_variations_in_range(3, 1)` has
`min > max` but raises no error at all: it returns `[3.0, 1.0]`. -/
theorem C7_min_gt_max_counterexample :
    (3 : ℚ) > 1 ∧
    get_variations_in_range 20 3 1 none none = Except.ok [3, 1] := by
  refine ⟨by norm_num, ?_⟩
  norm_num [get_variations_in_range, fullIntSteps, gvFinish, gvLoop, roundTo,
    roundHalfEven]

/-- Claim C7 (amended): `min > max` is not validated and never raises the
claimed input error.  Depending on the input such a call can instead
(i) return normally without any error — `get_variations_in_range(3, 1)`
returns `[3.0, 1.0]`; (ii) raise an incidental `ZeroDivisionError` when the
derived `steps_count` is zero — as for `min = 2, max = 1`; or (iii) fail to
terminate — for `min = 5.2, max = 5` the call reaches the stepping loop with
the derived `step = -5.0` (third conjunct: the model call always lands in
`gvFinish` with step `-5`), and that loop never exits: started from
`item = 5.2` it exhausts every fuel bound (fourth conjunct), i.e. the Python
`while (item + step) <= max_val` loop runs forever. -/
theorem C7_min_gt_max_amended :
    get_variations_in_range 20 2 1 none none =
      Except.error "ZeroDivisionError" ∧
    get_variations_in_range 20 3 1 none none = Except.ok [3, 1] ∧
    (∀ fuel : ℕ, get_variations_in_range (fuel + 1) (26/5) 5 none none =
      Except.ok (gvFinish [26/5] (26/5) 5 (-5) 1 (fuel + 1))) ∧
    (∀ fuel : ℕ, (gvLoop 5 (-5) 1 (26/5) fuel).length = fuel) := by
  refine ⟨?_, ?_, ?_, ?_⟩
  · norm_num [get_variations_in_range, fullIntSteps, gvFinish, gvLoop,
      roundTo, roundHalfEven]
  · norm_num [get_variations_in_range, fullIntSteps, gvFinish, gvLoop,
      roundTo, roundHalfEven]
  · intro fuel
    have h52 : ∀ f : ℕ, fullIntSteps f (52 : ℚ) = some (52, 0) := by
      intro f
      cases f <;> simp [fullIntSteps]
    have hfull : fullIntSteps (fuel + 1) ((26 : ℚ)/5) = some (52, 1) := by
      have hden : ¬(((26 : ℚ)/5).den = 1) := by norm_num
      simp only [fullIntSteps, if_neg hden]
      rw [show ((26 : ℚ)/5 * 10) = (52 : ℚ) by norm_num, h52]
      rfl
    norm_num [get_variations_in_range, hfull, roundTo, roundHalfEven]
  · intro fuel
    have key : ∀ (f : ℕ) (item : ℚ), item ≤ 10 →
        (gvLoop 5 (-5) 1 item f).length = f := by
      intro f
      induction f with
      | zero => intro item _; rfl
      | succ n ih =>
        intro item hitem
        simp only [gvLoop]
        rw [if_pos (by linarith)]
        simp [ih (item + -5) (by linarith)]
    exact key fuel (26/5) (by norm_num)

/-- Claim C8 (counterexample): `get_variations_in_range(0.1, 5, max_steps=10)`
returns a sequence that does not contain `1.0` and has length 11 > 10,
contradicting the claimed membership of `1.0` and the length bound. -/
theorem C8_scenario_counterexample :
    ∃ l, get_variations_in_range 16 (1/10) 5 none (some 10) = Except.ok l ∧
      (1 : ℚ) ∉ l ∧ l.length = 11 := by
  refine ⟨[1/10, 6/10, 11/10, 16/10, 21/10, 26/10, 31/10, 36/10,
    41/10, 46/10, 5], ?_, by norm_num, by norm_num⟩
  norm_num [get_variations_in_range, fullIntSteps, gvFinish, gvLoop, roundTo,
    roundHalfEven]

/-- Claim C8 (amended): `get_variations_in_range(0.1, 5, max_steps=10)`
returns exactly `[0.1, 0.6, 1.1, 1.6, 2.1, 2.6, 3.1, 3.6, 4.1, 4.6, 5.0]`:
it starts at `0.1` and ends at `5.0` as claimed, but has length 11 (exceeding
`max_steps = 10`) and does not contain `1.0`. -/
theorem C8_scenario_amended :
    get_variations_in_range 16 (1/10) 5 none (some 10) =
      Except.ok [1/10, 6/10, 11/10, 16/10, 21/10, 26/10, 31/10, 36/10,
        41/10, 46/10, 5] := by
  norm_num [get_variations_in_range, fullIntSteps, gvFinish, gvLoop, roundTo,
    roundHalfEven]

theorem scan_idx_none {acc : ℚ} :
    ∀ {lb : List LBEntry}, scan_idx acc lb = none →
      ∀ p ∈ lb, acc ≤ p.accuracy := by
  intro lb
  induction lb with
  | nil => simp
  | cons q t ih =>
    intro h p hp
    simp only [scan_idx] at h
    split at h
    · exact absurd h (by simp)
    · rcases List.mem_cons.mp hp with h1 | h2
      · rename_i hq
        rw [h1]; linarith [not_lt.mp hq]
      · exact ih (by simpa using h) p h2

theorem scan_idx_some {acc : ℚ} :
    ∀ {lb : List LBEntry} {idx : ℕ}, scan_idx acc lb = some idx →
      (∃ q rest, lb.drop idx = q :: rest ∧ q.accuracy < acc) ∧
      ∀ p ∈ lb.take idx, acc ≤ p.accuracy := by
  intro lb
  induction lb with
  | nil => simp [scan_idx]
  | cons q t ih =>
    intro idx h
    simp only [scan_idx] at h
    split at h
    · rename_i hq
      simp only [Option.some.injEq] at h
      subst h
      exact ⟨⟨q, t, rfl, hq⟩, by simp⟩
    · rename_i hq
      rcases Option.map_eq_some'.mp h with ⟨i, hi, hidx⟩
      subst hidx
      rcases ih hi with ⟨⟨r, rest, hdrop, hr⟩, htake⟩
      refine ⟨⟨r, rest, by simpa using hdrop, hr⟩, ?_⟩
      intro p hp
      rcases List.mem_cons.mp (by simpa using hp) with h1 | h2
      · rw [h1]; linarith [not_lt.mp hq]
      · exact htake p h2

theorem sortedDesc_take {lb : List LBEntry} (h : SortedDesc lb) (n : ℕ) :
    SortedDesc (lb.take n) :=
  List.Pairwise.sublist (List.take_sublist n lb) h

theorem sortedDesc_drop {lb : List LBEntry} (h : SortedDesc lb) (n : ℕ) :
    SortedDesc (lb.drop n) :=
  List.Pairwise.sublist (List.drop_sublist n lb) h

theorem lb_insert_at_length (maxLeaders : ℕ) (lb : List LBEntry)
    (e : LBEntry) (idx : ℕ) :
    (lb_insert_at maxLeaders lb e idx).length ≤ maxLeaders := by
  simp [lb_insert_at]

theorem lb_insert_at_sorted {maxLeaders : ℕ} {lb : List LBEntry} {e : LBEntry}
    {idx : ℕ} (hs : SortedDesc lb)
    (htake : ∀ p ∈ lb.take idx, e.accuracy ≤ p.accuracy)
    (hdrop : ∀ p ∈ lb.drop idx, p.accuracy ≤ e.accuracy) :
    SortedDesc (lb_insert_at maxLeaders lb e idx) := by
  apply List.Pairwise.sublist (List.take_sublist _ _)
  apply List.pairwise_append.mpr
  refine ⟨sortedDesc_take hs idx, ?_, ?_⟩
  · apply List.pairwise_cons.mpr
    exact ⟨hdrop, sortedDesc_drop hs idx⟩
  · intro a ha b hb
    rcases List.mem_cons.mp hb with h1 | h2
    · rw [h1]; exact htake a ha
    · have hcross := List.pairwise_append.mp
        (by rw [List.take_append_drop idx]; exact hs)
      exact hcross.2.2 a ha b h2

theorem lb_consider_preserves {maxLeaders : ℕ} (hml : 1 ≤ maxLeaders)
    {lb : List LBEntry} (name : String) (acc : ℚ)
    (hlen : lb.length ≤ maxLeaders) (hs : SortedDesc lb) :
    (lb_consider maxLeaders lb name acc).length ≤ maxLeaders ∧
    SortedDesc (lb_consider maxLeaders lb name acc) := by
  unfold lb_consider
  split
  · exact ⟨by simpa using hml, by simp [SortedDesc]⟩
  · split
    · rename_i idx hscan
      rcases scan_idx_some hscan with ⟨⟨q, rest, hdropeq, hq⟩, htake⟩
      refine ⟨lb_insert_at_length _ _ _ _, lb_insert_at_sorted hs htake ?_⟩
      intro p hp
      rw [hdropeq] at hp
      rcases List.mem_cons.mp hp with h1 | h2
      · rw [h1]; exact le_of_lt hq
      · have hpq : p.accuracy ≤ q.accuracy := by
          have hd : SortedDesc (q :: rest) := by
            rw [← hdropeq]; exact sortedDesc_drop hs idx
          exact (List.pairwise_cons.mp hd).1 p h2
        exact le_of_lt (lt_of_le_of_lt hpq hq)
    · rename_i hscan
      split
      · refine ⟨lb_insert_at_length _ _ _ _, lb_insert_at_sorted hs ?_ ?_⟩
        · intro p hp
          exact scan_idx_none hscan p (List.mem_of_mem_take hp)
        · intro p hp
          simp [List.drop_length] at hp
      · exact ⟨hlen, hs⟩

theorem lb_consider_all_invariant {maxLeaders : ℕ} (hml : 1 ≤ maxLeaders)
    (outcomes : List (String × ℚ)) :
    (lb_consider_all maxLeaders outcomes).length ≤ maxLeaders ∧
    SortedDesc (lb_consider_all maxLeaders outcomes) := by
  suffices h : ∀ (os : List (String × ℚ)) (lb : List LBEntry),
      lb.length ≤ maxLeaders → SortedDesc lb →
      (os.foldl (fun l p => lb_consider maxLeaders l p.1 p.2) lb).length ≤
          maxLeaders ∧
      SortedDesc (os.foldl (fun l p => lb_consider maxLeaders l p.1 p.2) lb) by
    exact h outcomes [] (by simp) (by simp [SortedDesc])
  intro os
  induction os with
  | nil => intro lb h1 h2; exact ⟨h1, h2⟩
  | cons o t ih =>
    intro lb h1 h2
    rcases lb_consider_preserves hml o.1 o.2 h1 h2 with ⟨h3, h4⟩
    exact ih _ h3 h4

theorem lb_consider_tie {maxLeaders : ℕ} {lb : List LBEntry} {name : String}
    {acc : ℚ} {i : ℕ} {p : LBEntry}
    (hs : SortedDesc lb) (hlen : lb.length ≤ maxLeaders)
    (hget : lb.get? i = some p) (hacc : p.accuracy = acc) :
    (lb_consider maxLeaders lb name acc).get? i = some p := by
  have hi : i < lb.length := by
    by_contra h
    rw [List.get?_eq_none.mpr (le_of_not_lt h)] at hget
    exact absurd hget (by simp)
  have himl : i < maxLeaders := lt_of_lt_of_le hi hlen
  unfold lb_consider
  split
  · rename_i h0
    exact absurd h0 (by omega)
  · split
    · rename_i idx hscan
      rcases scan_idx_some hscan with ⟨⟨q, rest, hdropeq, hq⟩, htake⟩
      have hio : i < idx := by
        by_contra hcon
        have hle : idx ≤ i := le_of_not_lt hcon
        have hgd : (lb.drop idx).get? (i - idx) = some p := by
          rw [List.get?_drop]
          rwa [Nat.add_sub_cancel' hle]
        rw [hdropeq] at hgd
        have hpm : p ∈ q :: rest := List.get?_mem hgd
        have hsd : SortedDesc (q :: rest) := by
          rw [← hdropeq]; exact sortedDesc_drop hs idx
        rcases List.mem_cons.mp hpm with h1 | h2
        · rw [h1] at hacc; linarith [hacc ▸ hq]
        · have : p.accuracy ≤ q.accuracy := (List.pairwise_cons.mp hsd).1 p h2
          linarith [hacc ▸ hq]
      unfold lb_insert_at
      rw [List.get?_take himl,
        List.get?_append (by simp [List.length_take]; omega),
        List.get?_take hio]
      exact hget
    · split
      · unfold lb_insert_at
        rw [List.get?_take himl,
          List.get?_append (by simp [List.length_take]; omega),
          List.get?_take hi]
        exact hget
      · exact hget

/-- Claim C3: for every sequence of considered outcomes, the leaderboard
holds at most `max_leaders` entries sorted in descending accuracy order
(first conjunct, by folding the insertion step from the empty leaderboard);
and inserting an entry whose accuracy equals an existing entry's accuracy
never displaces that entry — it keeps its exact rank (second conjunct). -/
theorem C3_leaderboard_invariant_and_ties (maxLeaders : ℕ)
    (hml : 1 ≤ maxLeaders) :
    (∀ outcomes : List (String × ℚ),
      (lb_consider_all maxLeaders outcomes).length ≤ maxLeaders ∧
      SortedDesc (lb_consider_all maxLeaders outcomes)) ∧
    (∀ (lb : List LBEntry) (name : String) (acc : ℚ) (i : ℕ) (p : LBEntry),
      SortedDesc lb → lb.length ≤ maxLeaders →
      lb.get? i = some p → p.accuracy = acc →
      (lb_consider maxLeaders lb name acc).get? i = some p) :=
  ⟨fun outcomes => lb_consider_all_invariant hml outcomes,
   fun _ _ _ _ _ hs hlen hget hacc => lb_consider_tie hs hlen hget hacc⟩

/-- Claim C3 (witness): the invariant and the tie rule at the code's
`max_leaders = 10`, on a concrete two-outcome tie. -/
theorem C3_leaderboard_witness :
    ((lb_consider_all 10 [("run-0", 7/10), ("run-1", 7/10)]).length ≤ 10 ∧
      SortedDesc (lb_consider_all 10 [("run-0", 7/10), ("run-1", 7/10)])) ∧
    (lb_consider 10 [⟨"run-0", 7/10⟩] "run-1" (7/10)).get? 0 =
      some ⟨"run-0", 7/10⟩ :=
  ⟨(C3_leaderboard_invariant_and_ties 10 (by norm_num)).1 _,
   (C3_leaderboard_invariant_and_ties 10 (by norm_num)).2
     [⟨"run-0", 7/10⟩] "run-1" (7/10) 0 ⟨"run-0", 7/10⟩
     (by simp [SortedDesc]) (by simp) rfl rfl⟩

/-- Claim C4 (counterexample): a run whose artifacts folder is absent is NOT
counted: from `variation_index = 5` the claim demands the counter to advance
to 6, but the code leaves the state entirely unchanged. -/
theorem C4_missing_artifacts_counterexample :
    outcome_step 10 false (fun _ => Except.ok (1/2)) "run-5" [] 5 ≠
      Except.ok ([], 6) := by
  simp [outcome_step]

/-- Claim C4 (amended): when the engine's output artifacts are absent after a
nominally successful call, no exception is raised and the accuracy is never
read (the accuracy reader `getAcc` is not invoked, whatever it would do) —
but, contrary to the claim, the run is NOT counted toward the
total-evaluated counter `variation_index`: leaderboard and counter are left
unchanged. -/
theorem C4_missing_artifacts_amended (maxLeaders : ℕ)
    (getAcc : Unit → Except String ℚ) (runName : String)
    (lb : List LBEntry) (idx : ℕ) :
    outcome_step maxLeaders false getAcc runName lb idx =
      Except.ok (lb, idx) := by
  simp [outcome_step]

/-- Claim C9: for every search session whose run-folder root already exists,
the search fails (`os.mkdir` raises `FileExistsError` right after the error
dialog) before any candidate is evaluated: no forecast invocation happens
for any candidate list. -/
theorem C9_preflight_existing_folder (maxLeaders : ℕ)
    (cands : List (Bool × (Unit → Except String ℚ) × String)) :
    run_search true maxLeaders cands = Except.error "FileExistsError" := rfl

/-- Claim C5 (amended): the persisted accuracy-within-tolerance statistic is
either undefined or a value in [0, 1]; the accuracy stored in the Outcome by
`Forecast.getAccuracy` is that statistic multiplied by 100 — hence in
[0, 100], not [0, 1] — and reading an undefined statistic raises `TypeError`
instead of storing an undefined accuracy. -/
theorem C5_outcome_accuracy_amended (pred actuals : List (ℤ × ℚ))
    (tolerance : ℚ) :
    (∀ a, compute_accuracy_within_tolerance pred actuals tolerance = some a →
      0 ≤ a ∧ a ≤ 1 ∧
      forecast_getAccuracy (some a) = Except.ok (a * 100) ∧
      0 ≤ a * 100 ∧ a * 100 ≤ 100) ∧
    forecast_getAccuracy none = Except.error "TypeError" := by
  refine ⟨?_, rfl⟩
  intro a h
  unfold compute_accuracy_within_tolerance at h
  split at h
  · exact absurd h (by simp)
  · split at h
    · exact absurd h (by simp)
    · rename_i hne
      simp only [Option.some.injEq] at h
      subst h
      have hlen : 0 < (accuracy_eval_rows pred actuals).length :=
        Nat.pos_iff_ne_zero.mpr hne
      have hlenq : (0 : ℚ) < ((accuracy_eval_rows pred actuals).length : ℚ) :=
        by exact_mod_cast hlen
      have hcount : (accuracy_eval_rows pred actuals).countP
          (fun r => decide (|r.2.1 - r.2.2| / |r.2.2| ≤ tolerance)) ≤
          (accuracy_eval_rows pred actuals).length := List.countP_le_length _
      have h0 : (0 : ℚ) ≤ (((accuracy_eval_rows pred actuals).countP
          (fun r => decide (|r.2.1 - r.2.2| / |r.2.2| ≤ tolerance)) : ℕ) : ℚ) /
          ((accuracy_eval_rows pred actuals).length : ℚ) := by positivity
      have h1 : ((((accuracy_eval_rows pred actuals).countP
          (fun r => decide (|r.2.1 - r.2.2| / |r.2.2| ≤ tolerance)) : ℕ) : ℚ)) /
          ((accuracy_eval_rows pred actuals).length : ℚ) ≤ 1 := by
        rw [div_le_one hlenq]
        exact_mod_cast hcount
      exact ⟨h0, h1, rfl, by positivity, by nlinarith⟩

/-- Claim C5 (counterexample): a run with two evaluable points of which one
is within tolerance persists the statistic `0.5`; `Forecast.getAccuracy`
stores `50.0` in the outcome — a defined value outside `[0, 1]`. -/
theorem C5_outcome_accuracy_counterexample :
    compute_accuracy_within_tolerance [(0, 1), (1, 3)] [(0, 1), (1, 1)]
        (1/100) = some (1/2) ∧
    forecast_getAccuracy (some (1/2)) = Except.ok 50 ∧
    ¬ ((50 : ℚ) ≤ 1) := by
  refine ⟨?_, by norm_num [forecast_getAccuracy], by norm_num⟩
  norm_num [compute_accuracy_within_tolerance, accuracy_eval_rows, mergeInner,
    lookupDs, List.filterMap, List.filter, List.countP, List.countP.go]
  intro hcontra
  rcases hcontra with h | h <;> simp_all

/-- Claim C5 (witness for the amended theorem): the bounds instantiated at
the concrete run used in the counterexample. -/
theorem C5_outcome_accuracy_witness :
    0 ≤ (1 : ℚ)/2 ∧ (1 : ℚ)/2 ≤ 1 ∧
    forecast_getAccuracy (some (1/2)) = Except.ok ((1 : ℚ)/2 * 100) ∧
    0 ≤ (1 : ℚ)/2 * 100 ∧ (1 : ℚ)/2 * 100 ≤ 100 :=
  (C5_outcome_accuracy_amended [(0, 1), (1, 3)] [(0, 1), (1, 1)] (1/100)).1
    (1/2)
    (by
      norm_num [compute_accuracy_within_tolerance, accuracy_eval_rows,
        mergeInner, lookupDs, List.filterMap, List.filter, List.countP,
        List.countP.go]
      intro hcontra
      rcases hcontra with h | h <;> simp_all)

/-- Claim C10: whenever the number of overlapping aligned training rows
shared by the target and all chosen regressors is positive but below 10,
`forecast_with_regressors` raises the insufficiency error — a candidate can
fail for data insufficiency even though the overlap is not empty. -/
theorem C10_insufficient_overlap (target : List (ℤ × ℚ))
    (regFrames : List (List (ℤ × ℚ)))
    (hpos : 0 < (merge_on_ds target regFrames).length)
    (hlt : (merge_on_ds target regFrames).length < 10) :
    train_matrix_gate target regFrames =
      Except.error
        "Insufficient overlapping data between target and regressors after alignment." := by
  unfold train_matrix_gate
  rw [if_pos (Or.inr hlt)]

/-- Claim C10 (witness): a target and one regressor sharing exactly five
timestamps — a non-empty overlap — trip the insufficiency error. -/
theorem C10_insufficient_overlap_witness :
    train_matrix_gate [(0, 1), (1, 1), (2, 1), (3, 1), (4, 1)]
        [[(0, 2), (1, 2), (2, 2), (3, 2), (4, 2)]] =
      Except.error
        "Insufficient overlapping data between target and regressors after alignment." :=
  C10_insufficient_overlap _ _
    (by norm_num [merge_on_ds, merge2, lookupDs, List.filterMap])
    (by norm_num [merge_on_ds, merge2, lookupDs, List.filterMap])

theorem ffill_of_all_some :
    ∀ (l : List (Option ℚ)) (prev : Option ℚ),
      (∀ x ∈ l, x.isSome) → ffill prev l = l := by
  intro l
  induction l with
  | nil => intro prev _; rfl
  | cons a rest ih =>
    intro prev hall
    cases a with
    | none => exact absurd (hall none (by simp)) (by simp)
    | some v =>
      simp only [ffill]
      rw [ih (some v) (fun x hx => hall x (List.mem_cons_of_mem _ hx))]

theorem strategyValues_length (strategy : String) (hist : List (ℤ × ℚ))
    (futureIndex : List ℤ) (maWindow linearWindow : ℕ) (engine : ℤ → ℚ) :
    (strategyValues strategy hist futureIndex maWindow linearWindow
      engine).length = futureIndex.length := by
  unfold strategyValues
  split
  · exact List.length_map _ _
  · split
    · exact List.length_map _ _
    · split
      · exact List.length_map _ _
      · exact List.length_map _ _

/-- Claim C6: for every projection strategy (the named ones and the
engine-assisted default) and every regressor history of length ≥ 1 (with a
valid positive moving-average window, which pandas requires), the projected
series covers exactly the requested forecast date range and carries a
defined value at every timestamp of it. -/
theorem C6_projection_no_gaps (strategy : String) (hist : List (ℤ × ℚ))
    (futureIndex : List ℤ) (maWindow linearWindow : ℕ) (engine : ℤ → ℚ)
    (hhist : hist ≠ []) (hma : 1 ≤ maWindow) :
    (forecast_regressors_future strategy hist futureIndex maWindow
        linearWindow engine).map Prod.fst = futureIndex ∧
    ∀ p ∈ forecast_regressors_future strategy hist futureIndex maWindow
        linearWindow engine, p.2.isSome := by
  have hsome : ∀ x ∈ (strategyValues strategy hist futureIndex maWindow
      linearWindow engine).map some, x.isSome := by
    intro x hx
    rcases List.mem_map.mp hx with ⟨v, _, hxv⟩
    simp [← hxv]
  have hff : ffill none ((strategyValues strategy hist futureIndex maWindow
      linearWindow engine).map some) =
      (strategyValues strategy hist futureIndex maWindow linearWindow
        engine).map some :=
    ffill_of_all_some _ none hsome
  have hbf : bfill ((strategyValues strategy hist futureIndex maWindow
      linearWindow engine).map some) =
      (strategyValues strategy hist futureIndex maWindow linearWindow
        engine).map some := by
    unfold bfill
    rw [ffill_of_all_some _ none (by
      intro x hx
      exact hsome x (List.mem_reverse.mp hx))]
    exact List.reverse_reverse _
  unfold forecast_regressors_future
  rw [hff, hbf]
  constructor
  · apply List.map_fst_zip
    rw [List.length_map, strategyValues_length]
  · intro p hp
    have hmem := (List.of_mem_zip hp).2
    rcases List.mem_map.mp hmem with ⟨v, _, hxv⟩
    simp [← hxv]

/-- Claim C6 (witness): the `linear` strategy on a one-point history over a
two-timestamp forecast range. -/
theorem C6_projection_no_gaps_witness :
    (forecast_regressors_future "linear" [(0, 2)] [100, 200] 30 90
        (fun _ => 0)).map Prod.fst = [100, 200] ∧
    ∀ p ∈ forecast_regressors_future "linear" [(0, 2)] [100, 200] 30 90
        (fun _ => 0), p.2.isSome :=
  C6_projection_no_gaps "linear" [(0, 2)] [100, 200] 30 90 (fun _ => 0)
    (by simp) (by norm_num)

theorem pyChoice_isSome {α : Type} {l : List α} (h : l ≠ []) (i : ℕ) :
    ∃ v, pyChoice l i = some v := by
  have hlen : 0 < l.length := List.length_pos.mpr h
  have hmod : i % l.length < l.length := Nat.mod_lt i hlen
  rcases List.get?_eq_get hmod with h2
  exact ⟨_, h2⟩

theorem pickSimple_some (choiceIdx : ℕ → ℕ) :
    ∀ (ks : List (String × List ℚ)), (∀ p ∈ ks, p.2 ≠ []) →
      ∀ t, ∃ base t2, pickSimple choiceIdx ks t = (some base, t2) := by
  intro ks
  induction ks with
  | nil => intro _ t; exact ⟨[], t, rfl⟩
  | cons kv rest ih =>
    intro hne t
    rcases pyChoice_isSome (hne kv (by simp)) (choiceIdx t) with ⟨v, hv⟩
    rcases ih (fun p hp => hne p (List.mem_cons_of_mem _ hp)) (t + 1) with
      ⟨base, t2, hbase⟩
    refine ⟨(kv.1, v) :: base, t2, ?_⟩
    simp only [pickSimple, hv, hbase, Option.map_some']

theorem pickRegs_some (choiceIdx : ℕ → ℕ) (coin : ℕ → Bool) :
    ∀ (ks : List (String × List ℚ)), (∀ p ∈ ks, p.2 ≠ []) →
      ∀ t, ∃ chosen t2, pickRegs choiceIdx coin ks t = (some chosen, t2) := by
  intro ks
  induction ks with
  | nil => intro _ t; exact ⟨[], t, rfl⟩
  | cons kv rest ih =>
    intro hne t
    by_cases hc : coin t
    · rcases pyChoice_isSome (hne kv (by simp)) (choiceIdx (t + 1)) with ⟨v, hv⟩
      rcases ih (fun p hp => hne p (List.mem_cons_of_mem _ hp)) (t + 2) with
        ⟨chosen, t2, hch⟩
      refine ⟨(kv.1, v) :: chosen, t2, ?_⟩
      simp only [pickRegs, if_pos hc, hv, hch, Option.map_some']
    · rcases ih (fun p hp => hne p (List.mem_cons_of_mem _ hp)) (t + 1) with
        ⟨chosen, t2, hch⟩
      refine ⟨chosen, t2, ?_⟩
      simp only [pickRegs, if_neg hc, hch]

theorem regSetsLoop_spec (choiceIdx : ℕ → ℕ) (coin : ℕ → Bool)
    {regs : List (String × List ℚ)} (hne : ∀ p ∈ regs, p.2 ≠ [])
    (base : List (String × ℚ)) :
    ∀ (n t : ℕ),
      (regSetsLoop choiceIdx coin regs base n t).errored = false ∧
      (regSetsLoop choiceIdx coin regs base n t).yielded.length = n := by
  intro n
  induction n with
  | zero => intro t; exact ⟨rfl, rfl⟩
  | succ k ih =>
    intro t
    rcases pickRegs_some choiceIdx coin regs hne t with ⟨chosen, t2, hpk⟩
    rcases ih t2 with ⟨h1, h2⟩
    simp only [regSetsLoop, hpk]
    exact ⟨h1, by simpa using h2⟩

theorem mainLoop_spec (choiceIdx : ℕ → ℕ) (coin : ℕ → Bool)
    {space : ParamSpace} (hs : ∀ p ∈ space.simple, p.2 ≠ [])
    (hr : ∀ p ∈ space.regressors, p.2 ≠ []) :
    ∀ (m n t : ℕ),
      (mainLoop choiceIdx coin space m n t).errored = false ∧
      (mainLoop choiceIdx coin space m n t).yielded.length = m * (n + 1) ∧
      ∀ i < m, ∃ c,
        (mainLoop choiceIdx coin space m n t).yielded.get? (i * (n + 1)) =
          some c ∧ c.regressors = [] := by
  intro m
  induction m with
  | zero =>
    intro n t
    exact ⟨rfl, by show ([] : List Candidate).length = 0 * (n + 1); simp,
      fun i hi => absurd hi (by omega)⟩
  | succ k ih =>
    intro n t
    rcases pickSimple_some choiceIdx space.simple hs t with ⟨base, t2, hpk⟩
    rcases regSetsLoop_spec choiceIdx coin hr base n t2 with ⟨hserr, hslen⟩
    rcases ih n (regSetsLoop choiceIdx coin space.regressors base n t2).t with
      ⟨h1, h2, h3⟩
    have hunfold : mainLoop choiceIdx coin space (k + 1) n t =
        ⟨⟨base, []⟩ ::
            ((regSetsLoop choiceIdx coin space.regressors base n t2).yielded
              ++ GenResult.yielded (mainLoop choiceIdx coin space k n
                (regSetsLoop choiceIdx coin space.regressors base n t2).t)),
          GenResult.t (mainLoop choiceIdx coin space k n
            (regSetsLoop choiceIdx coin space.regressors base n t2).t),
          GenResult.errored (mainLoop choiceIdx coin space k n
            (regSetsLoop choiceIdx coin space.regressors base n t2).t)⟩ := by
      simp only [mainLoop, hpk]
      rw [if_neg (by rw [hserr]; simp)]
    rw [hunfold]
    refine ⟨h1, ?_, ?_⟩
    · simp only [List.length_cons, List.length_append, hslen, h2]
      ring
    · intro i hi
      cases i with
      | zero => exact ⟨⟨base, []⟩, by simp, rfl⟩
      | succ j =>
        rcases h3 j (by omega) with ⟨c, hc, hcr⟩
        refine ⟨c, ?_, hcr⟩
        have hidx : (j + 1) * (n + 1) =
            (⟨base, []⟩ :: (regSetsLoop choiceIdx coin space.regressors base
              n t2).yielded).length + j * (n + 1) := by
          simp [hslen]; ring
        rw [show (⟨base, []⟩ ::
              ((regSetsLoop choiceIdx coin space.regressors base n
                  t2).yielded ++
                GenResult.yielded (mainLoop choiceIdx coin space k n
                  (regSetsLoop choiceIdx coin space.regressors base n
                    t2).t))) =
            (⟨base, []⟩ :: (regSetsLoop choiceIdx coin space.regressors base
                n t2).yielded) ++
              GenResult.yielded (mainLoop choiceIdx coin space k n
                (regSetsLoop choiceIdx coin space.regressors base n t2).t)
            from rfl,
          hidx, List.get?_append_right (by omega)]
        simpa using hc

/-- Claim C2: for every parameter space whose value lists are nonempty (as
the `ParameterRange`s built by discretization always are), every
`m, n ≥ 0` and every behaviour of the random oracles,
`smart_param_generator(space, m, n)` yields exactly `m * (n + 1)` candidates
without error, and for every draw `i < m` the candidate at position
`i * (n + 1)` has an empty regressor set. -/
theorem C2_sampler_count_and_baselines (choiceIdx : ℕ → ℕ) (coin : ℕ → Bool)
    (space : ParamSpace) (m n : ℕ)
    (hs : ∀ p ∈ space.simple, p.2 ≠ [])
    (hr : ∀ p ∈ space.regressors, p.2 ≠ []) :
    (smart_param_generator choiceIdx coin space m n).errored = false ∧
    (smart_param_generator choiceIdx coin space m n).yielded.length =
      m * (n + 1) ∧
    ∀ i < m, ∃ c,
      (smart_param_generator choiceIdx coin space m n).yielded.get?
        (i * (n + 1)) = some c ∧ c.regressors = [] :=
  mainLoop_spec choiceIdx coin hs hr m n 0

/-- Claim C2 (witness): a two-key space with one regressor, `m = 2`,
`n = 3`, constant oracles. -/
theorem C2_sampler_witness :
    (smart_param_generator (fun _ => 0) (fun t => t % 2 = 0)
        ⟨[("train_year", [2000, 2001]), ("smooth_window", [3, 7])],
          [("Amoniy", [1/10, 5])]⟩ 2 3).errored = false ∧
    (smart_param_generator (fun _ => 0) (fun t => t % 2 = 0)
        ⟨[("train_year", [2000, 2001]), ("smooth_window", [3, 7])],
          [("Amoniy", [1/10, 5])]⟩ 2 3).yielded.length = 2 * (3 + 1) ∧
    ∀ i < 2, ∃ c,
      (smart_param_generator (fun _ => 0) (fun t => t % 2 = 0)
          ⟨[("train_year", [2000, 2001]), ("smooth_window", [3, 7])],
            [("Amoniy", [1/10, 5])]⟩ 2 3).yielded.get? (i * (3 + 1)) =
        some c ∧ c.regressors = [] :=
  C2_sampler_count_and_baselines (fun _ => 0) (fun t => t % 2 = 0)
    ⟨[("train_year", [2000, 2001]), ("smooth_window", [3, 7])],
      [("Amoniy", [1/10, 5])]⟩ 2 3
    (by intro p hp; fin_cases hp <;> simp)
    (by intro p hp; fin_cases hp <;> simp)

end WaterQuality
